import Mathlib

/-!
Verification of the auto-editor timeline core against its specification.

Shallow embedding of `src/auto_editor/timeline.py` and
`src/auto_editor/formats/final_cut_pro.py`.  Python machine integers are
embedded as `ℤ`/`ℕ`, Python floats and `fractions.Fraction` values as `ℚ`
(the float values reaching the functions below are treated as exact
rationals), Python lists as `List`, and fallible code returns `Except`.
`ValueError` and `IndexError` are distinguished because
`make_layers` catches only `ValueError`.
-/

set_option maxHeartbeats 1000000
set_option maxRecDepth 8000

/-- Python exceptions relevant to `timeline.py`: `ValueError` raised by
`unclipify` / numpy, and `IndexError` raised by `layer[-1]` / `inputs[0]`. -/
inductive PyErr where
  | valueError
  | indexError
deriving DecidableEq

/-- A chunk triple `(start, stop, speed)` as produced by `chunkify`
(`auto_editor.utils.types.Chunks` entries). -/
structure Chunk where
  start : ℤ
  stop : ℤ
  speed : ℚ
deriving DecidableEq

/-- The `Clip` NamedTuple from `timeline.py`: fields in source order
`start, dur, offset, speed, src`. -/
structure Clip where
  start : ℤ
  dur : ℤ
  offset : ℤ
  speed : ℚ
  src : ℤ
deriving DecidableEq

/-- Modelled from the spec: of `auto_editor.ffwrapper.FileInfo` (an external
media-probe collaborator, not under src/) only the number of audio tracks
(`inp.audios`) matters to `make_av`. -/
structure FileInfo where
  audios : ℕ
deriving DecidableEq

/-- Modelled from the spec: `auto_editor.objects.VideoObj`, a plain data
container mirroring a clip (spec §4.4: "one video object per clip
(identical fields)"). -/
structure VideoObj where
  start : ℤ
  dur : ℤ
  offset : ℤ
  speed : ℚ
  src : ℤ
deriving DecidableEq

/-- Modelled from the spec: `auto_editor.objects.AudioObj`, a plain data
container mirroring a clip plus the audio track index. -/
structure AudioObj where
  start : ℤ
  dur : ℤ
  offset : ℤ
  speed : ℚ
  src : ℤ
  stream : ℕ
deriving DecidableEq

/-- Python `round` on the exact rational value: round half to even. -/
def pyround (q : ℚ) : ℤ :=
  let f := ⌊q⌋
  let r := q - (f : ℚ)
  if r < 1/2 then f
  else if 1/2 < r then f + 1
  else if 2 ∣ f then f else f + 1

/-- Helper for `chunkify`: extend the current run `(runStart, ·, cur)`
through `arr`, emitting a chunk each time the value changes. -/
def chunkifyAux (arr : List ℚ) (runStart pos : ℤ) (cur : ℚ) : List Chunk :=
  match arr with
  | [] => [⟨runStart, pos, cur⟩]
  | v :: rest =>
    if v = cur then chunkifyAux rest runStart (pos + 1) cur
    else ⟨runStart, pos, cur⟩ :: chunkifyAux rest pos (pos + 1) v

/-- Modelled from the spec: `chunkify` from `auto_editor.utils.func` is not
under src/.  Per spec §3 a chunk is a triple `(startFrame, endFrame, speed)`
for a maximal run of frames sharing one speed, and chunks are contiguous,
ordered and cover `[0, totalFrames)` without gaps (so `endFrame` is
exclusive, as in the spec example `[(0,10,100),(10,30,99999),(30,50,100)]`). -/
def chunkify (arr : List ℚ) : List Chunk :=
  match arr with
  | [] => []
  | v :: rest => chunkifyAux rest 0 1 v

/-- Output-time length of one kept chunk: `(stop - start) / speed`. -/
def chunkOutLen (c : Chunk) : ℚ :=
  ((c.stop - c.start : ℤ) : ℚ) / c.speed

/-- Modelled from the spec: `chunks_len` from `auto_editor.utils.func` is not
under src/.  Per spec §4.5/§8 the builder chains sources by advancing the
shared output-time cursor by the chunks' total output duration
`sum((stop - start) / speed for kept chunks)`. -/
def chunksLen (chunks : List Chunk) : ℚ :=
  ((chunks.filter (fun c => c.speed ≠ 99999)).map chunkOutLen).sum

/-- Loop body of `clipify` (`timeline.py` lines 148-166).  `i` counts the
kept chunks seen so far, `clips` is the accumulator (Python appends), and
the second component is the final value of the local cursor `start`. -/
def clipifyAux (chunks : List Chunk) (src : ℤ) (start : ℚ) (i : ℕ)
    (clips : List Clip) : List Clip × ℚ :=
  match chunks with
  | [] => (clips, start)
  | c :: rest =>
    if c.speed ≠ 99999 then
      let dur : ℤ := if i = 0 then c.stop - c.start + 1 else c.stop - c.start
      let offset : ℤ := if i = 0 then c.start else c.start + 1
      let clips' :=
        match clips.getLast? with
        | some last =>
          if last.start = pyround start then clips
          else clips ++ [⟨pyround start, dur, offset, c.speed, src⟩]
        | none => clips ++ [⟨pyround start, dur, offset, c.speed, src⟩]
      clipifyAux rest src (start + (dur : ℚ) / c.speed) (i + 1) clips'
    else
      clipifyAux rest src start i clips

/-- Function `clipify(chunks, src, start)` from `timeline.py`: returns only the clip
list (the Python function's return value). -/
def clipify (chunks : List Chunk) (src : ℤ) (start : ℚ) : List Clip :=
  (clipifyAux chunks src start 0 []).1

/-- The final value of the local cursor variable `start` inside `clipify`;
the source computes it but discards it (`clipify` returns only the list). -/
def clipifyEnd (chunks : List Chunk) (src : ℤ) (start : ℚ) : ℚ :=
  (clipifyAux chunks src start 0 []).2

/-- A list of `n` consecutive integers starting at `a`. -/
def intRangeAux (a : ℤ) : ℕ → List ℤ
  | 0 => []
  | n + 1 => a :: intRangeAux (a + 1) n

/-- The integer interval `[a, b)` as a list, i.e. Python `range(a, b)`. -/
def intRange (a b : ℤ) : List ℤ :=
  intRangeAux a (b - a).toNat

/-- The frame-offset range `[offset, offset + dur)` of one clip
(`range(clip.offset, clip.offset + clip.dur)` in `unclipify`). -/
def clipRange (c : Clip) : List ℤ :=
  intRange c.offset (c.offset + c.dur)

/-- The list `l` built by `unclipify`: the concatenation of all clips'
frame-offset ranges. -/
def expandOffsets : List Clip → List ℤ
  | [] => []
  | c :: rest => clipRange c ++ expandOffsets rest

/-- First loop of `unclipify` (`timeline.py` lines 40-51): per-clip checks
`clip.src != 0` and `clip.start > len(l)` (each raising `ValueError`),
then append the clip's offset range to `l`. -/
def unclipifyGather : List Clip → List ℤ → Except PyErr (List ℤ)
  | [], l => .ok l
  | c :: rest, l =>
    if c.src ≠ 0 then .error .valueError
    else if (l.length : ℤ) < c.start then .error .valueError
    else unclipifyGather rest (l ++ clipRange c)

/-- Core of numpy slice assignment: rebuild `arr`, replacing the entry at
(global) index `i` by `v` whenever `a ≤ i < b`. -/
def fillList : List ℚ → ℤ → ℤ → ℤ → ℚ → List ℚ
  | [], _, _, _, _ => []
  | x :: rest, i, a, b, v =>
    (if a ≤ i ∧ i < b then v else x) :: fillList rest (i + 1) a b v

/-- numpy `arr[a:b] = v` on a 1-d float array: negative bounds wrap by the
length, then the slice is (implicitly) clamped to `[0, len]`. -/
def npFillSlice (arr : List ℚ) (a b : ℤ) (v : ℚ) : List ℚ :=
  let n : ℤ := arr.length
  fillList arr 0 (if a < 0 then a + n else a) (if b < 0 then b + n else b) v

/-- Function `unclipify(layer)` from `timeline.py` lines 39-62.  After the gathering
loop: `ValueError` unless `l` is duplicate-free (`len(set(l)) == len(l)`)
and already sorted (`sorted(l) == l`); `IndexError` from `layer[-1]` when
the layer is empty; numpy raises `ValueError` for a negative array size;
otherwise an array of size `layer[-1].offset + layer[-1].dur` filled with
the drop sentinel `99999` and overwritten per clip with that clip's speed. -/
def unclipify (layer : List Clip) : Except PyErr (List ℚ) :=
  match unclipifyGather layer [] with
  | .error e => .error e
  | .ok l =>
    if l.Nodup ∧ l.Chain' (· ≤ ·) then
      match layer.getLast? with
      | none => .error .indexError
      | some last =>
        if last.offset + last.dur < 0 then .error .valueError
        else
          .ok (layer.foldl
            (fun arr c => npFillSlice arr c.offset (c.offset + c.dur) c.speed)
            (List.replicate (last.offset + last.dur).toNat 99999))
    else .error .valueError

/-- Function `make_av(clips, inp)` from `timeline.py` lines 169-184: one visual layer
with one `VideoObj` per clip, and one audio layer per audio track with one
`AudioObj` per clip tagged with the track index. -/
def makeAv (clips : List Clip) (inp : FileInfo) :
    List (List VideoObj) × List (List AudioObj) :=
  ([clips.map (fun c => ⟨c.start, c.dur, c.offset, c.speed, c.src⟩)],
   (List.range inp.audios).map
     (fun a => clips.map (fun c => ⟨c.start, c.dur, c.offset, c.speed, c.src, a⟩)))

/-- The clip-building loop of `make_layers` (`timeline.py` lines 191-195):
`clips += clipify(chunkify(s), i, start); start += chunks_len(chunkify(s))`. -/
def buildClipsAux : List (List ℚ) → ℕ → ℚ → List Clip
  | [], _, _ => []
  | sl :: rest, i, start =>
    clipify (chunkify sl) (i : ℤ) start ++
      buildClipsAux rest (i + 1) (start + chunksLen (chunkify sl))

/-- The full chained clip list built by `make_layers`. -/
def buildClips (speedlists : List (List ℚ)) : List Clip :=
  buildClipsAux speedlists 0 0

/-- Function `make_layers(inputs, speedlists)` from `timeline.py` lines 187-204.
`chunks = chunkify(unclipify(clips))` runs inside `try/except ValueError`,
so a `ValueError` leaves `chunks = None` while an `IndexError` propagates
and aborts the build; afterwards `make_av(clips, inputs[0])`. -/
def makeLayers (inputs : List FileInfo) (speedlists : List (List ℚ)) :
    Except PyErr (Option (List Chunk) × List (List VideoObj) × List (List AudioObj)) :=
  let clips := buildClips speedlists
  let chunksResult : Except PyErr (Option (List Chunk)) :=
    match unclipify clips with
    | .ok arr => .ok (some (chunkify arr))
    | .error .valueError => .ok none
    | .error .indexError => .error .indexError
  match chunksResult with
  | .error e => .error e
  | .ok chunks =>
    match inputs.head? with
    | none => .error .indexError
    | some inp => .ok (chunks, (makeAv clips inp).1, (makeAv clips inp).2)

/-- The overlay-duration gate of `make_timeline` (`timeline.py` lines
250-261): after resolving each pooled overlay object's fields, `log.error`
(fatal) fires on the first object with `obj.dur < 1`. -/
def checkObjDurs : List ℚ → Except String Unit
  | [] => .ok ()
  | d :: rest =>
    if d < 1 then .error "dur value must be greater than 0"
    else checkObjDurs rest

/-- One Euclidean step of CPython's `Fraction.limit_denominator` main loop,
with explicit fuel (the loop breaks once the next convergent's denominator
would exceed the bound); state is `(p0, q0, p1, q1, n, d)`. -/
def limitDenLoop (maxD : ℕ) : ℕ → ℤ × ℤ × ℤ × ℤ × ℤ × ℤ → ℤ × ℤ × ℤ × ℤ × ℤ × ℤ
  | 0, st => st
  | fuel + 1, (p0, q0, p1, q1, n, d) =>
    if d = 0 then (p0, q0, p1, q1, n, d)
    else
      let a := n / d
      let q2 := q0 + a * q1
      if (maxD : ℤ) < q2 then (p0, q0, p1, q1, n, d)
      else limitDenLoop maxD fuel (p1, q1, p0 + a * p1, q2, d, n - a * d)

/-- CPython's `Fraction.limit_denominator(max_denominator)`: the identity
whenever the reduced denominator is already within the bound, otherwise the
best approximation with denominator at most the bound (continued-fraction
convergents).  Every theorem below only exercises the identity branch. -/
def limitDen (q : ℚ) (maxD : ℕ) : ℚ :=
  if q.den ≤ maxD then q
  else
    let st := limitDenLoop maxD q.den (0, 1, 1, 0, q.num, (q.den : ℤ))
    let k := ((maxD : ℤ) - st.2.1) / st.2.2.2.1
    let b1 : ℚ := ((st.1 + k * st.2.2.1 : ℤ) : ℚ) / ((st.2.1 + k * st.2.2.2.1 : ℤ) : ℚ)
    let b2 : ℚ := ((st.2.2.1 : ℤ) : ℚ) / ((st.2.2.2.1 : ℤ) : ℚ)
    if |b2 - q| ≤ |b1 - q| then b2 else b1

/-- The fallback loop of `fraction` (`final_cut_pro.py` lines 34-36):
`while total < frac: total += Fraction(1, 30)`, with explicit fuel. -/
def accumLoop : ℕ → ℚ → ℚ → ℚ
  | 0, total, _ => total
  | fuel + 1, total, frac =>
    if total < frac then accumLoop fuel (total + 1/30) frac else total

/-- The fallback loop run from `total = 0` with enough fuel to terminate
(the loop needs at most `⌈30 * frac⌉ ≤ 30 * (frac.num + 1)` iterations). -/
def accumThirty (frac : ℚ) : ℚ :=
  accumLoop (30 * (frac.num.toNat + 1)) 0 frac

/-- The numerator/denominator pair emitted by `fraction` in
`final_cut_pro.py` (lines 11-40) for a nonzero input: reduce
`inp/fps` with `limit_denominator()` (bound `10^6`); if the denominator is
below `3000`, scale exactly by `3000/den` when that is an integer
(the Python float test `int(3000/dem) == 3000/dem` is exact for every
`dem < 3000`, since a non-integer `3000/dem` is at distance at least
`1/dem > 2^-12` from any integer, far above double rounding error),
else accumulate multiples of `1/30` (the `Fraction` sum auto-reduces). -/
def fracParts (inp fps : ℚ) : ℤ × ℤ :=
  let frac := limitDen (inp / fps) 1000000
  if frac.den < 3000 then
    if 3000 % frac.den = 0 then
      let factor : ℤ := 3000 / (frac.den : ℤ)
      (frac.num * factor, (frac.den : ℤ) * factor)
    else
      let total := accumThirty frac
      (total.num, (total.den : ℤ))
  else (frac.num, (frac.den : ℤ))

/-- Function `fraction(inp, fps)` from `final_cut_pro.py`: the emitted string,
`"0s"` for zero input, else `"{num}/{dem}s"`. -/
def fraction (inp fps : ℚ) : String :=
  if inp = 0 then "0s"
  else toString (fracParts inp fps).1 ++ "/" ++ toString (fracParts inp fps).2 ++ "s"

/-- The rational value decoded from `fraction`'s output: `num/dem`
(`0` for the `"0s"` case). -/
def fracVal (inp fps : ℚ) : ℚ :=
  if inp = 0 then 0
  else ((fracParts inp fps).1 : ℚ) / ((fracParts inp fps).2 : ℚ)

/-- One emitted `asset-clip` element of the exporter: the `offset` and
`duration` attributes, the optional `start` attribute (omitted on the
`last_dur == 0` branch), and the optional second `timept` of the
`timeMap` (its `time` and `value` attributes), present iff speed ≠ 100. -/
structure FcpElem where
  offsetAttr : String
  durAttr : String
  startAttr : Option String
  timeMap : Option (String × String)
deriving DecidableEq

/-- Source-side clip duration in output frames:
`(clip[1] - clip[0]) / (clip[2] / 100)` from `final_cut_pro.py` line 76. -/
def fcpClipDur (c : ℤ × ℤ × ℚ) : ℚ :=
  ((c.2.1 : ℚ) - (c.1 : ℚ)) / (c.2.2 / 100)

/-- The per-clip loop of `fcp_xml` (`final_cut_pro.py` lines 73-109) with
the running total `last_dur`; emits one `FcpElem` per clip triple. -/
def fcpGo (fps totalDur : ℚ) (lastDur : ℚ) : List (ℤ × ℤ × ℚ) → List FcpElem
  | [] => []
  | c :: rest =>
    let clipDur := fcpClipDur c
    let tm : Option (String × String) :=
      if c.2.2 ≠ 100 then
        some (fraction (totalDur / (c.2.2 / 100)) fps, fraction totalDur fps)
      else none
    (if lastDur = 0 then
      FcpElem.mk "0s" (fraction clipDur fps) none tm
    else
      FcpElem.mk (fraction lastDur fps) (fraction clipDur fps)
        (some (fraction ((c.1 : ℚ) / (c.2.2 / 100)) fps)) tm)
    :: fcpGo fps totalDur (lastDur + clipDur) rest

/-- All clip elements emitted by `fcp_xml` for a clip list (the loop starts
with `last_dur = 0`). -/
def fcpElems (clips : List (ℤ × ℤ × ℚ)) (fps totalDur : ℚ) : List FcpElem :=
  fcpGo fps totalDur 0 clips

/-- Follows C5's words (spec §4.2): process only the kept chunks, in order;
the first kept chunk yields `dur = stop - start + 1`, `offset = start`,
every later one `dur = stop - start`, `offset = start + 1`; skip the append
when the last appended clip's start equals the rounded cursor; always
advance the cursor by `dur / speed`. -/
def clipifySpecKeptAux (kept : List Chunk) (src : ℤ) (start : ℚ) (first : Bool)
    (clips : List Clip) : List Clip :=
  match kept with
  | [] => clips
  | c :: rest =>
    let dur : ℤ := if first then c.stop - c.start + 1 else c.stop - c.start
    let offset : ℤ := if first then c.start else c.start + 1
    let clips' :=
      match clips.getLast? with
      | some last =>
        if last.start = pyround start then clips
        else clips ++ [⟨pyround start, dur, offset, c.speed, src⟩]
      | none => clips ++ [⟨pyround start, dur, offset, c.speed, src⟩]
    clipifySpecKeptAux rest src (start + (dur : ℚ) / c.speed) false clips'

/-- Follows C5's words: the clip list described by the claim, built from
the kept chunks only. -/
def clipifySpecKept (kept : List Chunk) (src : ℤ) (start : ℚ) : List Clip :=
  clipifySpecKeptAux kept src start true []

/-- Predicate `∀ clip, clip.src = 0`: the single-source precondition checked first by
`unclipify`. -/
def SrcsOk (layer : List Clip) : Prop := ∀ c ∈ layer, c.src = 0

/-- The per-clip `clip.start ≤ len(l)` condition of `unclipify`, threaded
through the number of frames already emitted. -/
def NoGap : List Clip → ℤ → Prop
  | [], _ => True
  | c :: rest, base => c.start ≤ base ∧ NoGap rest (base + (c.dur.toNat : ℤ))

/-- Frame index `j` lies in the clip's covered range
`[offset, offset + dur)`. -/
def Covers (c : Clip) (j : ℤ) : Prop :=
  c.offset ≤ j ∧ j < c.offset + c.dur

instance (c : Clip) (j : ℤ) : Decidable (Covers c j) :=
  inferInstanceAs (Decidable (c.offset ≤ j ∧ j < c.offset + c.dur))

theorem limitDen_self (q : ℚ) (maxD : ℕ) (h : q.den ≤ maxD) :
    limitDen q maxD = q := by
  simp [limitDen, h]

theorem accumLoop_go (frac : ℚ) :
    ∀ (fuel k : ℕ), ⌈frac * 30⌉ ≤ (k : ℤ) + (fuel : ℤ) →
      accumLoop fuel ((k : ℚ) / 30) frac = ((max ⌈frac * 30⌉ (k : ℤ) : ℤ) : ℚ) / 30 := by
  intro fuel
  induction fuel with
  | zero =>
    intro k h
    simp only [Nat.cast_zero, add_zero] at h
    rw [accumLoop, max_eq_right h]
    push_cast
    rfl
  | succ fuel ih =>
    intro k h
    simp only [accumLoop]
    by_cases hc : (k : ℚ) / 30 < frac
    · rw [if_pos hc]
      have hk : (k : ℤ) < ⌈frac * 30⌉ := by
        rw [Int.lt_ceil]
        rw [div_lt_iff (by norm_num : (0:ℚ) < 30)] at hc
        push_cast
        linarith
      have hstep : (k : ℚ) / 30 + 1 / 30 = ((k + 1 : ℕ) : ℚ) / 30 := by
        push_cast
        ring
      have hfuel : ⌈frac * 30⌉ ≤ ((k + 1 : ℕ) : ℤ) + (fuel : ℤ) := by
        push_cast at h ⊢
        linarith
      rw [hstep, ih (k + 1) hfuel]
      have h1 : max ⌈frac * 30⌉ ((k + 1 : ℕ) : ℤ) = ⌈frac * 30⌉ := by
        apply max_eq_left
        push_cast
        omega
      have h2 : max ⌈frac * 30⌉ (k : ℤ) = ⌈frac * 30⌉ := max_eq_left (by omega)
      rw [h1, h2]
    · rw [if_neg hc]
      push_neg at hc
      have hle : ⌈frac * 30⌉ ≤ (k : ℤ) := by
        rw [Int.ceil_le]
        rw [le_div_iff (by norm_num : (0:ℚ) < 30)] at hc
        push_cast
        linarith
      rw [max_eq_right hle]
      push_cast
      rfl

theorem accumThirty_eq (frac : ℚ) (h : 0 < frac) :
    accumThirty frac = ((⌈frac * 30⌉ : ℤ) : ℚ) / 30 := by
  have hnum : (0 : ℤ) < frac.num := Rat.num_pos.mpr h
  have hfq : frac ≤ (frac.num : ℚ) := by
    conv_lhs => rw [← Rat.num_div_den frac]
    apply div_le_self (by exact_mod_cast hnum.le)
    exact_mod_cast frac.pos
  have hfuel : ⌈frac * 30⌉ ≤ ((0 : ℕ) : ℤ) + ((30 * (frac.num.toNat + 1) : ℕ) : ℤ) := by
    have h30 : frac * 30 ≤ ((30 * frac.num : ℤ) : ℚ) := by
      push_cast
      nlinarith
    have hc := Int.ceil_le.mpr h30
    have htn : (frac.num.toNat : ℤ) = frac.num := Int.toNat_of_nonneg hnum.le
    push_cast [htn]
    linarith
  have h0 : (0 : ℚ) = ((0 : ℕ) : ℚ) / 30 := by norm_num
  rw [accumThirty, h0, accumLoop_go frac _ 0 hfuel]
  have : max ⌈frac * 30⌉ ((0 : ℕ) : ℤ) = ⌈frac * 30⌉ := by
    apply max_eq_left
    have : (0 : ℤ) < ⌈frac * 30⌉ := Int.ceil_pos.mpr (by positivity)
    omega
  rw [this]

/-- Rewriting `(q.num : ℚ) / ((q.den : ℤ) : ℚ) = q`, the shape appearing in `fracVal`. -/
theorem num_div_den_int (q : ℚ) : ((q.num : ℤ) : ℚ) / (((q.den : ℤ) : ℤ) : ℚ) = q := by
  push_cast
  exact Rat.num_div_den q

theorem fracVal_fallback (inp fps : ℚ) (hne : inp ≠ 0) (hpos : 0 < inp / fps)
    (hd6 : (inp / fps).den ≤ 1000000) (hden : (inp / fps).den < 3000)
    (hnd : ¬ 3000 % (inp / fps).den = 0) :
    fracVal inp fps = ((⌈(inp / fps) * 30⌉ : ℤ) : ℚ) / 30 := by
  rw [fracVal, if_neg hne, fracParts]
  simp only [limitDen_self _ _ hd6]
  rw [if_pos hden, if_neg hnd, accumThirty_eq _ hpos]
  exact num_div_den_int _

theorem fracVal_exact (inp fps : ℚ) (hne : inp ≠ 0)
    (hd6 : (inp / fps).den ≤ 1000000)
    (hexact : 3000 % (inp / fps).den = 0 ∨ 3000 ≤ (inp / fps).den) :
    fracVal inp fps = inp / fps := by
  rw [fracVal, if_neg hne, fracParts]
  simp only [limitDen_self _ _ hd6]
  by_cases hden : (inp / fps).den < 3000
  · rw [if_pos hden]
    have hmod : 3000 % (inp / fps).den = 0 := by
      rcases hexact with h | h
      · exact h
      · omega
    rw [if_pos hmod]
    have hfac : (0 : ℤ) < 3000 / ((inp / fps).den : ℤ) := by
      apply Int.ediv_pos_of_pos_of_dvd (by norm_num)
      · exact_mod_cast Nat.pos_of_ne_zero (Rat.den_nz _) |>.le
      · exact_mod_cast (Nat.dvd_of_mod_eq_zero hmod)
    have hfac' : ((3000 / ((inp / fps).den : ℤ) : ℤ) : ℚ) ≠ 0 := by
      exact_mod_cast hfac.ne'
    push_cast
    rw [mul_div_mul_right _ _ hfac']
    exact_mod_cast Rat.num_div_den _
  · rw [if_neg hden]
    exact num_div_den_int _

theorem fracVal_ge (inp fps : ℚ) (hne : inp ≠ 0) (hpos : 0 < inp / fps)
    (hd6 : (inp / fps).den ≤ 1000000) :
    inp / fps ≤ fracVal inp fps := by
  by_cases hden : (inp / fps).den < 3000
  · by_cases hnd : 3000 % (inp / fps).den = 0
    · rw [fracVal_exact inp fps hne hd6 (Or.inl hnd)]
    · rw [fracVal_fallback inp fps hne hpos hd6 hden hnd]
      rw [le_div_iff (by norm_num : (0:ℚ) < 30)]
      exact_mod_cast Int.le_ceil _
  · rw [fracVal_exact inp fps hne hd6 (Or.inr (by omega))]

theorem fracVal_lt (inp fps : ℚ) (hne : inp ≠ 0) (hpos : 0 < inp / fps)
    (hd6 : (inp / fps).den ≤ 1000000) :
    fracVal inp fps < inp / fps + 1 / 30 := by
  by_cases hden : (inp / fps).den < 3000
  · by_cases hnd : 3000 % (inp / fps).den = 0
    · rw [fracVal_exact inp fps hne hd6 (Or.inl hnd)]
      linarith
    · rw [fracVal_fallback inp fps hne hpos hd6 hden hnd]
      rw [div_lt_iff (by norm_num : (0:ℚ) < 30)]
      have := Int.ceil_lt_add_one ((inp / fps) * 30)
      push_cast at this ⊢
      linarith
  · rw [fracVal_exact inp fps hne hd6 (Or.inr (by omega))]
    linarith

theorem chunksLen_nil : chunksLen [] = 0 := rfl

theorem chunksLen_cons_kept (c : Chunk) (rest : List Chunk) (h : c.speed ≠ 99999) :
    chunksLen (c :: rest) = chunkOutLen c + chunksLen rest := by
  simp [chunksLen, List.filter_cons, h]

theorem chunksLen_cons_drop (c : Chunk) (rest : List Chunk) (h : c.speed = 99999) :
    chunksLen (c :: rest) = chunksLen rest := by
  simp [chunksLen, List.filter_cons, h]

theorem clipifyAux_snd_pos (chunks : List Chunk) :
    ∀ (src : ℤ) (s : ℚ) (i : ℕ) (clips : List Clip), i ≠ 0 →
      (clipifyAux chunks src s i clips).2 = s + chunksLen chunks := by
  induction chunks with
  | nil => intro src s i clips _; simp [clipifyAux, chunksLen]
  | cons c rest ih =>
    intro src s i clips hi
    by_cases hk : c.speed ≠ 99999
    · simp only [clipifyAux, if_pos hk, if_neg hi]
      rw [ih _ _ _ _ (Nat.succ_ne_zero i), chunksLen_cons_kept c rest hk, chunkOutLen]
      ring
    · push_neg at hk
      simp only [clipifyAux, hk, ne_eq, not_true_eq_false, if_false]
      rw [ih _ _ _ _ hi, chunksLen_cons_drop c rest hk]

theorem clipifyAux_snd_zero (chunks : List Chunk) :
    ∀ (src : ℤ) (s : ℚ) (clips : List Clip),
      (clipifyAux chunks src s 0 clips).2 =
        s + chunksLen chunks +
          ((chunks.filter (fun c => c.speed ≠ 99999)).head?.elim 0 (fun c => 1 / c.speed)) := by
  induction chunks with
  | nil => intro src s clips; simp [clipifyAux, chunksLen]
  | cons c rest ih =>
    intro src s clips
    by_cases hk : c.speed ≠ 99999
    · simp only [clipifyAux, if_pos hk, if_pos rfl]
      rw [clipifyAux_snd_pos _ _ _ _ _ (Nat.succ_ne_zero 0),
        chunksLen_cons_kept c rest hk, chunkOutLen]
      rw [List.filter_cons_of_pos (by simpa using hk)]
      simp only [List.head?_cons, Option.elim_some]
      push_cast
      rw [add_div]
      ring
    · push_neg at hk
      simp only [clipifyAux, hk, ne_eq, not_true_eq_false, if_false]
      rw [ih _ _ _, chunksLen_cons_drop c rest hk,
        List.filter_cons_of_neg (by simpa using hk)]

/-- C3 (corrected): `clipify` returns no cursor; the final value of its
local cursor equals the caller-side `chunks_len` advance plus one extra
`1/speed` of the first kept chunk (the first chunk's `+1` adjustment);
the cursor advances for every kept chunk regardless of appending. -/
theorem C3_amended (chunks : List Chunk) (src : ℤ) (s : ℚ) :
    clipifyEnd chunks src s =
      s + chunksLen chunks +
        ((chunks.filter (fun c => c.speed ≠ 99999)).head?.elim 0 (fun c => 1 / c.speed)) := by
  rw [clipifyEnd, clipifyAux_snd_zero]

/-- C3 counterexample: for the single kept chunk `(0, 1, 1)` and start
cursor `0`, the cursor computed by `clipify` ends at `2`, not at
`0 + (1 - 0)/1 = 1` as the claim's conservation equation states. -/
theorem C3_counterexample :
    clipifyEnd [⟨0, 1, 1⟩] 0 0 = 2 ∧
      (0 : ℚ) + chunksLen [⟨0, 1, 1⟩] = 1 ∧
      clipifyEnd [⟨0, 1, 1⟩] 0 0 ≠ (0 : ℚ) + chunksLen [⟨0, 1, 1⟩] := by
  refine ⟨?_, ?_, ?_⟩
  · norm_num [clipifyEnd, clipifyAux, pyround]
  · norm_num [chunksLen, chunkOutLen]
  · norm_num [clipifyEnd, clipifyAux, pyround, chunksLen, chunkOutLen]

theorem clipifyAux_fst_eq_spec (chunks : List Chunk) :
    ∀ (src : ℤ) (s : ℚ) (i : ℕ) (clips : List Clip),
      (clipifyAux chunks src s i clips).1 =
        clipifySpecKeptAux (chunks.filter (fun c => c.speed ≠ 99999)) src s
          (decide (i = 0)) clips := by
  induction chunks with
  | nil => intro src s i clips; simp [clipifyAux, clipifySpecKeptAux]
  | cons c rest ih =>
    intro src s i clips
    by_cases hk : c.speed ≠ 99999
    · rw [List.filter_cons_of_pos (by simpa using hk)]
      simp only [clipifyAux, if_pos hk, clipifySpecKeptAux]
      by_cases hi : i = 0
      · simp only [hi, show decide ((0:ℕ) = 0) = true from rfl, if_pos rfl, if_true]
        rw [ih _ _ _ _]
        norm_num
      · simp only [if_neg hi, decide_eq_false hi, Bool.false_eq_true, if_false]
        rw [ih _ _ _ _]
        simp [Nat.succ_ne_zero]
    · push_neg at hk
      rw [List.filter_cons_of_neg (by simpa using hk)]
      simp only [clipifyAux, hk, ne_eq, not_true_eq_false, if_false]
      exact ih _ _ _ _

theorem clipifyAux_chain (chunks : List Chunk) :
    ∀ (src : ℤ) (s : ℚ) (i : ℕ) (clips : List Clip),
      List.Chain' (fun a b => a.start ≠ b.start) clips →
      List.Chain' (fun a b => a.start ≠ b.start) (clipifyAux chunks src s i clips).1 := by
  induction chunks with
  | nil => intro src s i clips h; simpa [clipifyAux] using h
  | cons c rest ih =>
    intro src s i clips h
    by_cases hk : c.speed ≠ 99999
    · simp only [clipifyAux, if_pos hk]
      apply ih
      cases hlast : clips.getLast? with
      | none =>
        have : clips = [] := by
          cases clips with
          | nil => rfl
          | cons x xs => simp [List.getLast?_eq_getLast] at hlast
        subst this
        simp [List.chain'_singleton]
      | some last =>
        by_cases hs : last.start = pyround s
        · simp only [hlast, if_pos hs]
          exact h
        · simp only [hlast, if_neg hs]
          rw [List.chain'_append]
          refine ⟨h, List.chain'_singleton _, ?_⟩
          intro x hx y hy
          simp only [List.head?_cons, Option.mem_def, Option.some.injEq] at hy
          rw [hlast] at hx
          simp only [Option.mem_def, Option.some.injEq] at hx
          subst hx
          subst hy
          simpa using hs
    · push_neg at hk
      simp only [clipifyAux, hk, ne_eq, not_true_eq_false, if_false]
      exact ih _ _ _ _ h

/-- C5 (confirmed): `clipify` emits clips only for the kept
(non-drop-sentinel) chunks, in order, exactly as the claim describes
(first kept chunk `dur = stop-start+1`, `offset = start`; later kept
chunks `dur = stop-start`, `offset = start+1`; no append when the last
appended clip's start equals the rounded cursor), and consequently no two
consecutive emitted clips share the same start. -/
theorem C5_theorem (chunks : List Chunk) (src : ℤ) (s : ℚ) :
    clipify chunks src s =
      clipifySpecKept (chunks.filter (fun c => c.speed ≠ 99999)) src s ∧
    List.Chain' (fun a b => a.start ≠ b.start) (clipify chunks src s) := by
  constructor
  · rw [clipify, clipifySpecKept, clipifyAux_fst_eq_spec]
    rfl
  · exact clipifyAux_chain chunks src s 0 [] List.chain'_nil

theorem pyround_zero : pyround 0 = 0 := by
  norm_num [pyround]

theorem chunkifyAux_replicate (v : ℚ) :
    ∀ (m : ℕ) (s p : ℤ), chunkifyAux (List.replicate m v) s p v = [⟨s, p + (m : ℤ), v⟩] := by
  intro m
  induction m with
  | zero => intro s p; simp [chunkifyAux]
  | succ m ih =>
    intro s p
    rw [List.replicate_succ, chunkifyAux, if_pos rfl, ih s (p + 1)]
    have : p + 1 + (m : ℤ) = p + ((m + 1 : ℕ) : ℤ) := by push_cast; ring
    rw [this]

theorem chunkify_replicate (n : ℕ) (v : ℚ) (hn : 1 ≤ n) :
    chunkify (List.replicate n v) = [⟨0, (n : ℤ), v⟩] := by
  cases n with
  | zero => omega
  | succ m =>
    rw [List.replicate_succ, chunkify, chunkifyAux_replicate v m 0 1]
    have : (1 : ℤ) + (m : ℤ) = ((m + 1 : ℕ) : ℤ) := by push_cast; ring
    rw [this]

theorem clipify_chunkify_replicate (n : ℕ) (v : ℚ) (hn : 1 ≤ n) (hv : v ≠ 99999) :
    clipify (chunkify (List.replicate n v)) 0 0 = [⟨0, (n : ℤ) + 1, 0, v, 0⟩] := by
  rw [chunkify_replicate n v hn]
  simp [clipify, clipifyAux, hv, pyround_zero]

theorem intRangeAux_length : ∀ (n : ℕ) (a : ℤ), (intRangeAux a n).length = n := by
  intro n
  induction n with
  | zero => intro a; rfl
  | succ n ih => intro a; simp [intRangeAux, ih]

theorem mem_intRangeAux :
    ∀ (n : ℕ) (a y : ℤ), y ∈ intRangeAux a n ↔ a ≤ y ∧ y < a + n := by
  intro n
  induction n with
  | zero => intro a y; simp [intRangeAux]
  | succ n ih =>
    intro a y
    rw [intRangeAux]
    simp only [List.mem_cons, ih (a + 1) y]
    omega

theorem intRangeAux_pairwise :
    ∀ (n : ℕ) (a : ℤ), (intRangeAux a n).Pairwise (· < ·) := by
  intro n
  induction n with
  | zero => intro a; exact List.Pairwise.nil
  | succ n ih =>
    intro a
    rw [intRangeAux]
    refine List.Pairwise.cons ?_ (ih (a + 1))
    intro y hy
    have := (mem_intRangeAux n (a + 1) y).mp hy
    omega

theorem intRangeAux_nodup (n : ℕ) (a : ℤ) : (intRangeAux a n).Nodup :=
  (intRangeAux_pairwise n a).imp ne_of_lt

theorem intRangeAux_chain (n : ℕ) (a : ℤ) : (intRangeAux a n).Chain' (· ≤ ·) :=
  ((intRangeAux_pairwise n a).imp le_of_lt).chain'

theorem fillList_length :
    ∀ (arr : List ℚ) (i a b : ℤ) (v : ℚ), (fillList arr i a b v).length = arr.length := by
  intro arr
  induction arr with
  | nil => intro i a b v; rfl
  | cons x rest ih => intro i a b v; simp [fillList, ih]

theorem fillList_replicate_full (v x : ℚ) :
    ∀ (m : ℕ) (i a b : ℤ), a ≤ i → i + (m : ℤ) ≤ b →
      fillList (List.replicate m x) i a b v = List.replicate m v := by
  intro m
  induction m with
  | zero => intro i a b _ _; rfl
  | succ m ih =>
    intro i a b ha hb
    rw [List.replicate_succ, List.replicate_succ, fillList,
      if_pos ⟨ha, by push_cast at hb; omega⟩,
      ih (i + 1) a b (by omega) (by push_cast at hb ⊢; omega)]

theorem unclipify_single (d : ℤ) (v : ℚ) (hd : 1 ≤ d) :
    unclipify [⟨0, d, 0, v, 0⟩] = .ok (List.replicate d.toNat v) := by
  have hgather : unclipifyGather [⟨0, d, 0, v, 0⟩] [] =
      .ok (intRangeAux 0 d.toNat) := by
    rw [unclipifyGather, if_neg (by norm_num), if_neg (by norm_num), unclipifyGather]
    simp [clipRange, intRange]
  rw [unclipify, hgather]
  dsimp only
  rw [if_pos ⟨intRangeAux_nodup _ _, intRangeAux_chain _ _⟩]
  simp only [List.getLast?_singleton]
  rw [if_neg (show ¬((0 : ℤ) + d < 0) by omega)]
  have hsize : ((0 : ℤ) + d).toNat = d.toNat := by omega
  have hoff : ({ start := 0, dur := d, offset := 0, speed := v, src := 0 } : Clip).offset = 0 :=
    rfl
  have hdur : ({ start := 0, dur := d, offset := 0, speed := v, src := 0 } : Clip).dur = d :=
    rfl
  have hspd : ({ start := 0, dur := d, offset := 0, speed := v, src := 0 } : Clip).speed = v :=
    rfl
  rw [List.foldl_cons, List.foldl_nil, hsize, hoff, hdur, hspd, npFillSlice]
  rw [if_neg (by norm_num), if_neg (by omega)]
  rw [fillList_replicate_full v _ d.toNat 0 0 (0 + d) le_rfl (by omega)]

/-- C1 (corrected): on a constant drop-free speed array of length `n ≥ 1`
the round trip `unclipify ∘ clipify ∘ chunkify` returns the constant array
of length `n + 1` — one frame longer than the input (the first clip's `+1`
adjustment), so it does not reproduce the input. -/
theorem C1_amended (n : ℕ) (v : ℚ) (hn : 1 ≤ n) (hv : v ≠ 99999) (_hvpos : 0 < v) :
    unclipify (clipify (chunkify (List.replicate n v)) 0 0) =
      .ok (List.replicate (n + 1) v) := by
  rw [clipify_chunkify_replicate n v hn hv, unclipify_single _ v (by omega)]
  have : ((n : ℤ) + 1).toNat = n + 1 := by omega
  rw [this]

/-- C1 witness: the concrete round trip for the length-2 constant array of
speed 1 yields the length-3 constant array. -/
theorem C1_witness :
    unclipify (clipify (chunkify (List.replicate 2 (1 : ℚ))) 0 0) =
      .ok (List.replicate 3 (1 : ℚ)) :=
  C1_amended 2 1 (by norm_num) (by norm_num) (by norm_num)

/-- C1 counterexample: the round trip of the drop-free array `[1]` returns
`[1, 1]`, not the original array, refuting the exact round-trip claim. -/
theorem C1_counterexample :
    unclipify (clipify (chunkify [(1 : ℚ)]) 0 0) ≠ .ok [(1 : ℚ)] ∧
      unclipify (clipify (chunkify [(1 : ℚ)]) 0 0) = .ok [(1 : ℚ), 1] := by
  have h : unclipify (clipify (chunkify [(1 : ℚ)]) 0 0) = .ok [(1 : ℚ), 1] := by
    norm_num [chunkify, chunkifyAux, clipify, clipifyAux, pyround, unclipify,
      unclipifyGather, clipRange, intRange, intRangeAux, npFillSlice, fillList]
  exact ⟨by rw [h]; simp, h⟩

theorem clipRange_length (c : Clip) : (clipRange c).length = c.dur.toNat := by
  rw [clipRange, intRange, intRangeAux_length]
  congr 1
  omega

theorem mem_clipRange (c : Clip) (j : ℤ) :
    j ∈ clipRange c ↔ Covers c j := by
  rw [clipRange, intRange, mem_intRangeAux, Covers]
  omega

theorem not_srcsOk_iff (layer : List Clip) :
    ¬ SrcsOk layer ↔ ∃ c ∈ layer, c.src ≠ 0 := by
  simp [SrcsOk]

theorem gather_ok :
    ∀ (layer : List Clip) (l0 : List ℤ), SrcsOk layer → NoGap layer l0.length →
      unclipifyGather layer l0 = .ok (l0 ++ expandOffsets layer) := by
  intro layer
  induction layer with
  | nil => intro l0 _ _; simp [unclipifyGather, expandOffsets]
  | cons c rest ih =>
    intro l0 hs hg
    have hsrc : c.src = 0 := hs c (List.mem_cons_self c rest)
    rw [unclipifyGather, if_neg (not_not_intro hsrc), if_neg (not_lt.mpr hg.1)]
    have hbase : (((l0 ++ clipRange c).length : ℕ) : ℤ) =
        ((l0.length : ℕ) : ℤ) + ((c.dur.toNat : ℕ) : ℤ) := by
      rw [List.length_append, clipRange_length]
      push_cast
      ring
    rw [ih (l0 ++ clipRange c) (fun x hx => hs x (List.mem_cons_of_mem c hx))
      (by rw [hbase]; exact hg.2)]
    rw [expandOffsets, List.append_assoc]

theorem gather_err :
    ∀ (layer : List Clip) (l0 : List ℤ),
      ¬ (SrcsOk layer ∧ NoGap layer l0.length) →
      unclipifyGather layer l0 = .error .valueError := by
  intro layer
  induction layer with
  | nil =>
    intro l0 h
    exact absurd ⟨fun c hc => absurd hc (List.not_mem_nil c), trivial⟩ h
  | cons c rest ih =>
    intro l0 h
    by_cases hsrc : c.src ≠ 0
    · rw [unclipifyGather, if_pos hsrc]
    · rw [unclipifyGather, if_neg hsrc]
      push_neg at hsrc
      by_cases hst : ((l0.length : ℕ) : ℤ) < c.start
      · rw [if_pos hst]
      · rw [if_neg hst]
        apply ih
        intro hrest
        apply h
        refine ⟨fun x hx => ?_, not_lt.mp hst, ?_⟩
        · rcases List.mem_cons.mp hx with rfl | hx'
          · exact hsrc
          · exact hrest.1 x hx'
        · have hbase : (((l0 ++ clipRange c).length : ℕ) : ℤ) =
              ((l0.length : ℕ) : ℤ) + ((c.dur.toNat : ℕ) : ℤ) := by
            rw [List.length_append, clipRange_length]
            push_cast
            ring
          rw [← hbase]
          exact hrest.2

theorem npFillSlice_length (arr : List ℚ) (a b : ℤ) (v : ℚ) :
    (npFillSlice arr a b v).length = arr.length := by
  rw [npFillSlice]
  exact fillList_length _ _ _ _ _

theorem foldl_fill_length :
    ∀ (clips : List Clip) (arr0 : List ℚ),
      (clips.foldl (fun arr c => npFillSlice arr c.offset (c.offset + c.dur) c.speed)
        arr0).length = arr0.length := by
  intro clips
  induction clips with
  | nil => intro arr0; rfl
  | cons c rest ih =>
    intro arr0
    rw [List.foldl_cons, ih, npFillSlice_length]

theorem fillList_getElem? :
    ∀ (arr : List ℚ) (i a b : ℤ) (v : ℚ) (j : ℕ),
      (fillList arr i a b v)[j]? =
        (arr[j]?).map (fun x => if a ≤ i + (j : ℤ) ∧ i + (j : ℤ) < b then v else x) := by
  intro arr
  induction arr with
  | nil => intro i a b v j; simp [fillList]
  | cons x rest ih =>
    intro i a b v j
    cases j with
    | zero => simp [fillList]
    | succ j =>
      rw [fillList]
      simp only [List.getElem?_cons_succ, ih (i + 1) a b v j]
      have harith : i + 1 + (j : ℤ) = i + ((j + 1 : ℕ) : ℤ) := by
        push_cast
        ring
      simp only [harith]

theorem npFillSlice_getElem? (arr : List ℚ) (a b : ℤ) (v : ℚ) (j : ℕ)
    (ha : 0 ≤ a) (hb : 0 ≤ b) :
    (npFillSlice arr a b v)[j]? =
      (arr[j]?).map (fun x => if a ≤ (j : ℤ) ∧ (j : ℤ) < b then v else x) := by
  rw [npFillSlice]
  rw [if_neg (not_lt.mpr ha), if_neg (not_lt.mpr hb), fillList_getElem?]
  simp

theorem foldl_fill_getElem? :
    ∀ (clips : List Clip) (arr0 : List ℚ) (j : ℕ),
      (∀ c ∈ clips, 0 ≤ c.offset ∧ 1 ≤ c.dur) → j < arr0.length →
      (∃ c ∈ clips, Covers c (j : ℤ) ∧
        (clips.foldl (fun arr c => npFillSlice arr c.offset (c.offset + c.dur) c.speed)
          arr0)[j]? = some c.speed) ∨
      ((∀ c ∈ clips, ¬ Covers c (j : ℤ)) ∧
        (clips.foldl (fun arr c => npFillSlice arr c.offset (c.offset + c.dur) c.speed)
          arr0)[j]? = arr0[j]?) := by
  intro clips
  induction clips with
  | nil =>
    intro arr0 j _ _
    right
    exact ⟨fun c hc => absurd hc (List.not_mem_nil c), rfl⟩
  | cons c rest ih =>
    intro arr0 j h hj
    have hc := h c (List.mem_cons_self c rest)
    have hlen1 : (npFillSlice arr0 c.offset (c.offset + c.dur) c.speed).length =
        arr0.length := npFillSlice_length _ _ _ _
    rcases ih (npFillSlice arr0 c.offset (c.offset + c.dur) c.speed) j
        (fun x hx => h x (List.mem_cons_of_mem c hx)) (by rw [hlen1]; exact hj) with
      ⟨c', hc', hcov, heq⟩ | ⟨hnone, heq⟩
    · left
      exact ⟨c', List.mem_cons_of_mem c hc', hcov, by rw [List.foldl_cons]; exact heq⟩
    · have harr1 : (npFillSlice arr0 c.offset (c.offset + c.dur) c.speed)[j]? =
          if Covers c (j : ℤ) then some c.speed else arr0[j]? := by
        rw [npFillSlice_getElem? arr0 _ _ _ j hc.1 (by omega)]
        rw [List.getElem?_eq_getElem hj]
        by_cases hcv : Covers c (j : ℤ)
        · rw [if_pos hcv]
          simp only [Option.map_some']
          rw [if_pos ⟨hcv.1, hcv.2⟩]
        · rw [if_neg hcv]
          simp only [Option.map_some']
          rw [if_neg (fun hand => hcv ⟨hand.1, hand.2⟩)]
      by_cases hcv : Covers c (j : ℤ)
      · left
        refine ⟨c, List.mem_cons_self c rest, hcv, ?_⟩
        rw [List.foldl_cons, heq, harr1, if_pos hcv]
      · right
        refine ⟨fun x hx => ?_, ?_⟩
        · rcases List.mem_cons.mp hx with rfl | hx'
          · exact hcv
          · exact hnone x hx'
        · rw [List.foldl_cons, heq, harr1, if_neg hcv]

/-- C4 (corrected): `unclipify` raises exactly when some clip has a nonzero
source index, or some clip's start exceeds the frames already emitted, or
the concatenated offset ranges are not strictly increasing (duplicate-free
and sorted); the ranges need not be exactly `{0, …, N-1}` — a leading or
interior offset gap passes the check and is filled with the drop sentinel.
On success the array has length `last.offset + last.dur`, holds each
covering clip's speed at covered indices and the sentinel elsewhere. -/
theorem C4_amended (layer : List Clip) (hne : layer ≠ [])
    (hwf : ∀ c ∈ layer, 0 ≤ c.offset ∧ 1 ≤ c.dur) :
    ((∃ e, unclipify layer = .error e) ↔
      ((∃ c ∈ layer, c.src ≠ 0) ∨ ¬ NoGap layer 0 ∨
        ¬ ((expandOffsets layer).Nodup ∧ (expandOffsets layer).Chain' (· ≤ ·)))) ∧
    (∀ arr, unclipify layer = .ok arr →
      (∃ last, layer.getLast? = some last ∧
        arr.length = (last.offset + last.dur).toNat) ∧
      ∀ j : ℕ, j < arr.length →
        ((∃ c ∈ layer, Covers c (j : ℤ) ∧ arr[j]? = some c.speed) ∨
         ((∀ c ∈ layer, ¬ Covers c (j : ℤ)) ∧ arr[j]? = some 99999))) := by
  by_cases hAB : SrcsOk layer ∧ NoGap layer 0
  · have hg : unclipifyGather layer [] = .ok (expandOffsets layer) := by
      have := gather_ok layer [] hAB.1 (by simpa using hAB.2)
      simpa using this
    have hlast := List.getLast?_eq_getLast layer hne
    have hwfl := hwf (layer.getLast hne) (List.getLast_mem hne)
    have hsz : ¬ ((layer.getLast hne).offset + (layer.getLast hne).dur < 0) := by
      omega
    by_cases hC : ((expandOffsets layer).Nodup ∧ (expandOffsets layer).Chain' (· ≤ ·))
    · have hval : unclipify layer =
          .ok (layer.foldl
            (fun arr c => npFillSlice arr c.offset (c.offset + c.dur) c.speed)
            (List.replicate
              (((layer.getLast hne).offset + (layer.getLast hne).dur).toNat) 99999)) := by
        rw [unclipify, hg]
        dsimp only
        rw [if_pos hC, hlast]
        dsimp only
        rw [if_neg hsz]
      constructor
      · rw [hval]
        simp only [reduceCtorEq, exists_false, false_iff, not_or]
        push_neg
        refine ⟨fun c hc => hAB.1 c hc, hAB.2, hC⟩
      · intro arr harr
        rw [hval] at harr
        have harr' := Except.ok.inj harr
        subst harr'
        constructor
        · refine ⟨layer.getLast hne, hlast, ?_⟩
          rw [foldl_fill_length, List.length_replicate]
        · intro j hj
          have hj0 : j < (List.replicate
              (((layer.getLast hne).offset + (layer.getLast hne).dur).toNat)
              (99999 : ℚ)).length := by
            rw [List.length_replicate]
            rw [foldl_fill_length, List.length_replicate] at hj
            exact hj
          rcases foldl_fill_getElem? layer _ j hwf hj0 with
            ⟨c, hcmem, hcov, heq⟩ | ⟨hnone, heq⟩
          · exact Or.inl ⟨c, hcmem, hcov, heq⟩
          · refine Or.inr ⟨hnone, ?_⟩
            rw [heq, List.getElem?_replicate,
              if_pos (by rw [List.length_replicate] at hj0; exact hj0)]
    · have hval : unclipify layer = .error .valueError := by
        rw [unclipify, hg]
        dsimp only
        rw [if_neg hC]
      constructor
      · rw [hval]
        constructor
        · intro _
          exact Or.inr (Or.inr hC)
        · intro _
          exact ⟨.valueError, rfl⟩
      · intro arr harr
        rw [hval] at harr
        exact absurd harr (by simp)
  · have hval : unclipify layer = .error .valueError := by
      rw [unclipify, gather_err layer [] (by simpa using hAB)]
    constructor
    · rw [hval]
      constructor
      · intro _
        rcases not_and_or.mp hAB with hA | hB
        · exact Or.inl ((not_srcsOk_iff layer).mp hA)
        · exact Or.inr (Or.inl hB)
      · intro _
        exact ⟨.valueError, rfl⟩
    · intro arr harr
      rw [hval] at harr
      exact absurd harr (by simp)

/-- C4 counterexample: the single clip with `offset = 5`, `dur = 1` has
offset range `[5]`, which is not the set `{0, …, 5}` demanded by the claim
(`N = last.offset + last.dur = 6`), yet `unclipify` succeeds instead of
raising, returning five sentinel frames followed by the clip's speed. -/
theorem C4_counterexample :
    unclipify [⟨0, 1, 5, 1, 0⟩] = .ok [99999, 99999, 99999, 99999, 99999, 1] ∧
      expandOffsets [⟨0, 1, 5, 1, 0⟩] = [5] ∧
      ([5] : List ℤ) ≠ (List.range 6).map (fun k => (k : ℤ)) := by
  refine ⟨?_, ?_, ?_⟩
  · norm_num [unclipify, unclipifyGather, clipRange, intRange, intRangeAux,
      npFillSlice, fillList]
  · norm_num [expandOffsets, clipRange, intRange, intRangeAux]
  · decide

/-- C4 witness: the amended characterization applied to the concrete
single-clip layer `[(start 0, dur 2, offset 0, speed 1, src 0)]`. -/
theorem C4_witness :
    ((∃ e, unclipify [⟨0, 2, 0, 1, 0⟩] = .error e) ↔
      ((∃ c ∈ [(⟨0, 2, 0, 1, 0⟩ : Clip)], c.src ≠ 0) ∨
        ¬ NoGap [⟨0, 2, 0, 1, 0⟩] 0 ∨
        ¬ ((expandOffsets [⟨0, 2, 0, 1, 0⟩]).Nodup ∧
            (expandOffsets [⟨0, 2, 0, 1, 0⟩]).Chain' (· ≤ ·)))) ∧
    (∀ arr, unclipify [⟨0, 2, 0, 1, 0⟩] = .ok arr →
      (∃ last, ([(⟨0, 2, 0, 1, 0⟩ : Clip)]).getLast? = some last ∧
        arr.length = (last.offset + last.dur).toNat) ∧
      ∀ j : ℕ, j < arr.length →
        ((∃ c ∈ [(⟨0, 2, 0, 1, 0⟩ : Clip)], Covers c (j : ℤ) ∧ arr[j]? = some c.speed) ∨
         ((∀ c ∈ [(⟨0, 2, 0, 1, 0⟩ : Clip)], ¬ Covers c (j : ℤ)) ∧
           arr[j]? = some 99999))) :=
  C4_amended [⟨0, 2, 0, 1, 0⟩] (by simp)
    (by
      intro c hc
      rw [List.mem_singleton] at hc
      subst hc
      exact ⟨le_refl 0, by norm_num⟩)

theorem chunkifyAux_sentinel :
    ∀ (arr : List ℚ), (∀ v ∈ arr, v = 99999) → ∀ (s p : ℤ),
      ∀ c ∈ chunkifyAux arr s p 99999, c.speed = 99999 := by
  intro arr
  induction arr with
  | nil =>
    intro _ s p c hc
    rw [chunkifyAux, List.mem_singleton] at hc
    rw [hc]
  | cons v rest ih =>
    intro h s p c hc
    have hv : v = 99999 := h v (List.mem_cons_self v rest)
    rw [chunkifyAux, if_pos hv] at hc
    exact ih (fun x hx => h x (List.mem_cons_of_mem v hx)) s (p + 1) c hc

theorem chunkify_sentinel (arr : List ℚ) (h : ∀ v ∈ arr, v = 99999) :
    ∀ c ∈ chunkify arr, c.speed = 99999 := by
  cases arr with
  | nil => intro c hc; rw [chunkify] at hc; exact absurd hc (List.not_mem_nil c)
  | cons v rest =>
    intro c hc
    rw [chunkify, h v (List.mem_cons_self v rest)] at hc
    exact chunkifyAux_sentinel rest (fun x hx => h x (List.mem_cons_of_mem v hx)) 0 1 c hc

theorem clipifyAux_dropped :
    ∀ (chunks : List Chunk), (∀ c ∈ chunks, c.speed = 99999) →
      ∀ (src : ℤ) (s : ℚ) (i : ℕ) (clips : List Clip),
        clipifyAux chunks src s i clips = (clips, s) := by
  intro chunks
  induction chunks with
  | nil => intro _ src s i clips; rfl
  | cons c rest ih =>
    intro h src s i clips
    rw [clipifyAux, if_neg (not_not_intro (h c (List.mem_cons_self c rest)))]
    exact ih (fun x hx => h x (List.mem_cons_of_mem c hx)) src s i clips

theorem clipify_dropped (chunks : List Chunk) (h : ∀ c ∈ chunks, c.speed = 99999)
    (src : ℤ) (s : ℚ) : clipify chunks src s = [] := by
  rw [clipify, clipifyAux_dropped chunks h src s 0 []]

theorem buildClipsAux_dropped :
    ∀ (sls : List (List ℚ)), (∀ sl ∈ sls, ∀ v ∈ sl, v = 99999) →
      ∀ (i : ℕ) (s : ℚ), buildClipsAux sls i s = [] := by
  intro sls
  induction sls with
  | nil => intro _ i s; rfl
  | cons sl rest ih =>
    intro h i s
    rw [buildClipsAux,
      clipify_dropped _ (chunkify_sentinel sl (h sl (List.mem_cons_self sl rest))) _ _,
      List.nil_append]
    exact ih (fun x hx => h x (List.mem_cons_of_mem sl hx)) (i + 1) _

theorem unclipify_nil : unclipify [] = .error .indexError := by
  norm_num [unclipify, unclipifyGather]

/-- C10 (confirmed): when every frame of every (nonempty) source speed list
is the drop sentinel, the chained clip list is empty; `unclipify []`
raises `IndexError` (from `layer[-1]`), not the structural `ValueError`,
and `make_layers` catches only `ValueError`, so the whole build aborts
with that `IndexError` instead of proceeding without a chunk summary. -/
theorem C10_theorem (inputs : List FileInfo) (speedlists : List (List ℚ))
    (_h1 : speedlists ≠ []) (_h2 : ∀ sl ∈ speedlists, sl ≠ [])
    (h3 : ∀ sl ∈ speedlists, ∀ v ∈ sl, v = 99999) :
    buildClips speedlists = [] ∧
      unclipify ([] : List Clip) = .error .indexError ∧
      makeLayers inputs speedlists = .error .indexError := by
  have hb : buildClips speedlists = [] := buildClipsAux_dropped speedlists h3 0 0
  refine ⟨hb, unclipify_nil, ?_⟩
  simp [makeLayers, hb, unclipify_nil]

/-- C10 witness: the concrete all-dropped single source `[[99999]]`. -/
theorem C10_witness :
    buildClips [[(99999 : ℚ)]] = [] ∧
      unclipify ([] : List Clip) = .error .indexError ∧
      makeLayers [⟨1⟩] [[(99999 : ℚ)]] = .error .indexError :=
  C10_theorem [⟨1⟩] [[(99999 : ℚ)]] (by simp) (by simp) (by simp)

/-- C8 (confirmed): whenever `unclipify` raises its structural
`ValueError` on the chained clip list, `make_layers` still succeeds: the
error is caught locally, the recovered chunk summary is `None`, and the
visual/audio layers are exactly those produced by `make_av` from the same
clips and the first input. -/
theorem C8_theorem (inputs : List FileInfo) (speedlists : List (List ℚ))
    (inp : FileInfo) (h1 : inputs.head? = some inp)
    (h2 : unclipify (buildClips speedlists) = .error .valueError) :
    makeLayers inputs speedlists =
      .ok (none, (makeAv (buildClips speedlists) inp).1,
        (makeAv (buildClips speedlists) inp).2) := by
  simp [makeLayers, h2, h1]

/-- C8 witness: two chained sources `[[1], [1]]` give the second clip
`src = 1`, so `unclipify` raises `ValueError`; the build still returns
layers with chunk summary `None`. -/
theorem C8_witness :
    makeLayers [(⟨1⟩ : FileInfo)] [[(1 : ℚ)], [(1 : ℚ)]] =
      .ok (none, (makeAv (buildClips [[(1 : ℚ)], [(1 : ℚ)]]) ⟨1⟩).1,
        (makeAv (buildClips [[(1 : ℚ)], [(1 : ℚ)]]) ⟨1⟩).2) :=
  C8_theorem [⟨1⟩] [[(1 : ℚ)], [(1 : ℚ)]] ⟨1⟩ rfl
    (by
      norm_num [buildClips, buildClipsAux, chunkify, chunkifyAux, chunksLen,
        chunkOutLen, clipify, clipifyAux, pyround, unclipify, unclipifyGather,
        clipRange, intRange, intRangeAux])

/-- C2 (confirmed): on the fallback path (reduced denominator `d < 3000`,
`3000` not a multiple of `d`), the encoder emits the smallest whole
multiple of `1/30` that is at least `frames/frameRate`, hence within
`1/30` of the exact value. -/
theorem C2_theorem (inp fps : ℚ) (hi : 0 < inp) (hf : 0 < fps)
    (hden : (inp / fps).den < 3000) (hnd : ¬ ((inp / fps).den ∣ 3000)) :
    (∃ m : ℕ, fracVal inp fps = (m : ℚ) / 30) ∧
      inp / fps ≤ fracVal inp fps ∧
      (∀ m : ℕ, inp / fps ≤ (m : ℚ) / 30 → fracVal inp fps ≤ (m : ℚ) / 30) ∧
      |fracVal inp fps - inp / fps| < 1 / 30 := by
  have hpos : 0 < inp / fps := div_pos hi hf
  have hne : inp ≠ 0 := hi.ne'
  have hd6 : (inp / fps).den ≤ 1000000 := by omega
  have hnd' : ¬ 3000 % (inp / fps).den = 0 := fun h =>
    hnd (Nat.dvd_iff_mod_eq_zero.mpr h)
  have hval := fracVal_fallback inp fps hne hpos hd6 hden hnd'
  have hceil : (inp / fps) * 30 ≤ ((⌈(inp / fps) * 30⌉ : ℤ) : ℚ) := Int.le_ceil _
  have hceil_pos : (0 : ℤ) < ⌈(inp / fps) * 30⌉ := Int.ceil_pos.mpr (by positivity)
  refine ⟨⟨(⌈(inp / fps) * 30⌉).toNat, ?_⟩, ?_, ?_, ?_⟩
  · rw [hval]
    congr 1
    have := Int.toNat_of_nonneg hceil_pos.le
    exact_mod_cast this.symm
  · rw [hval, le_div_iff (by norm_num : (0:ℚ) < 30)]
    exact hceil
  · intro m hm
    rw [hval]
    have hm' : ⌈(inp / fps) * 30⌉ ≤ (m : ℤ) := by
      apply Int.ceil_le.mpr
      rw [le_div_iff (by norm_num : (0:ℚ) < 30)] at hm
      push_cast
      linarith
    exact (div_le_div_right (by norm_num : (0:ℚ) < 30)).mpr (by exact_mod_cast hm')
  · rw [hval]
    have hub := Int.ceil_lt_add_one ((inp / fps) * 30)
    have hnn : (0 : ℚ) ≤ ((⌈(inp / fps) * 30⌉ : ℤ) : ℚ) / 30 - inp / fps := by
      have : inp / fps ≤ ((⌈(inp / fps) * 30⌉ : ℤ) : ℚ) / 30 := by
        rw [le_div_iff (by norm_num : (0:ℚ) < 30)]
        exact hceil
      linarith
    rw [abs_of_nonneg hnn]
    have : ((⌈(inp / fps) * 30⌉ : ℤ) : ℚ) < (inp / fps) * 30 + 1 := hub
    have h30 : ((⌈(inp / fps) * 30⌉ : ℤ) : ℚ) / 30 < inp / fps + 1 / 30 := by
      rw [div_lt_iff (by norm_num : (0:ℚ) < 30)]
      linarith
    linarith

/-- C2 witness: frames 1 at rate 7 (`1/7` has denominator `7 < 3000`,
`7 ∤ 3000`): the encoder's fallback output is the least multiple of `1/30`
at least `1/7`, within `1/30` of it. -/
theorem C2_witness :
    (∃ m : ℕ, fracVal 1 7 = (m : ℚ) / 30) ∧
      (1 : ℚ) / 7 ≤ fracVal 1 7 ∧
      (∀ m : ℕ, (1 : ℚ) / 7 ≤ (m : ℚ) / 30 → fracVal 1 7 ≤ (m : ℚ) / 30) ∧
      |fracVal 1 7 - 1 / 7| < 1 / 30 :=
  C2_theorem 1 7 (by norm_num) (by norm_num) (by norm_num) (by norm_num)

/-- C7 (corrected): strict monotonicity of the decoded encoder output holds
for rates at most 30 (where one frame exceeds the `1/30` fallback
granularity); above 30 it fails.  The denominator bounds make the
`limit_denominator` step of the source the identity. -/
theorem C7_amended (f1 f2 : ℕ) (rate : ℚ) (h0 : 0 < rate) (h30 : rate ≤ 30)
    (hf : f1 < f2) (hd1 : ((f1 : ℚ) / rate).den ≤ 1000000)
    (hd2 : ((f2 : ℚ) / rate).den ≤ 1000000) :
    fracVal (f1 : ℚ) rate < fracVal (f2 : ℚ) rate := by
  have hf2 : (0 : ℚ) < (f2 : ℚ) := by
    have : 0 < f2 := by omega
    exact_mod_cast this
  have hf2pos : 0 < (f2 : ℚ) / rate := div_pos hf2 h0
  have hge2 := fracVal_ge (f2 : ℚ) rate hf2.ne' hf2pos hd2
  by_cases h1 : f1 = 0
  · subst h1
    simp only [Nat.cast_zero]
    rw [show fracVal 0 rate = 0 from by simp [fracVal]]
    exact lt_of_lt_of_le hf2pos hge2
  · have hf1 : (0 : ℚ) < (f1 : ℚ) := by
      have : 0 < f1 := Nat.pos_of_ne_zero h1
      exact_mod_cast this
    have hf1pos : 0 < (f1 : ℚ) / rate := div_pos hf1 h0
    have hlt1 := fracVal_lt (f1 : ℚ) rate hf1.ne' hf1pos hd1
    have h130 : (1 : ℚ) / 30 ≤ 1 / rate := one_div_le_one_div_of_le h0 h30
    have hsucc : (f1 : ℚ) + 1 ≤ (f2 : ℚ) := by exact_mod_cast hf
    have hstep : (f1 : ℚ) / rate + 1 / 30 ≤ (f2 : ℚ) / rate := by
      calc (f1 : ℚ) / rate + 1 / 30 ≤ (f1 : ℚ) / rate + 1 / rate := by linarith
        _ = ((f1 : ℚ) + 1) / rate := div_add_div_same _ _ _
        _ ≤ (f2 : ℚ) / rate := (div_le_div_right h0).mpr hsucc
    linarith

/-- C7 witness: frames 1 < 2 at rate 30 decode to strictly increasing
values. -/
theorem C7_witness : fracVal ((1 : ℕ) : ℚ) 30 < fracVal ((2 : ℕ) : ℚ) 30 :=
  C7_amended 1 2 30 (by norm_num) (by norm_num) (by norm_num)
    (by norm_num) (by norm_num)

/-- C7 counterexample: at rate 64, frames 7 and 8 decode to `2/15` and
`1/8`; `2/15 > 1/8`, so the decoded output is not strictly increasing in
the frame count. -/
theorem C7_counterexample :
    fracVal 7 64 = 2 / 15 ∧ fracVal 8 64 = 1 / 8 ∧
      ¬ (fracVal 7 64 < fracVal 8 64) := by
  have h7 : fracVal 7 64 = 2 / 15 := by
    rw [fracVal_fallback 7 64 (by norm_num) (by norm_num) (by norm_num) (by norm_num)
      (by norm_num)]
    rw [show ((7 : ℚ) / 64) * 30 = 105 / 32 by norm_num]
    rw [show ⌈(105 / 32 : ℚ)⌉ = 4 by rw [Int.ceil_eq_iff]; norm_num]
    norm_num
  have h8 : fracVal 8 64 = 1 / 8 := by
    rw [fracVal_exact 8 64 (by norm_num) (by norm_num) (Or.inl (by norm_num))]
    norm_num
  refine ⟨h7, h8, ?_⟩
  rw [h7, h8]
  norm_num

theorem fraction_zero (fps : ℚ) : fraction 0 fps = "0s" := by
  simp [fraction]

theorem fcpGo_getElem? :
    ∀ (clips : List (ℤ × ℤ × ℚ)) (fps totalDur lastDur : ℚ) (i : ℕ) (c : ℤ × ℤ × ℚ),
      clips[i]? = some c →
      ∃ e, (fcpGo fps totalDur lastDur clips)[i]? = some e ∧
        e.durAttr = fraction (fcpClipDur c) fps ∧
        e.offsetAttr = fraction (lastDur + ((clips.take i).map fcpClipDur).sum) fps ∧
        e.timeMap = (if c.2.2 ≠ 100 then
          some (fraction (totalDur / (c.2.2 / 100)) fps, fraction totalDur fps)
          else none) := by
  intro clips
  induction clips with
  | nil => intro fps t lastDur i c hc; simp at hc
  | cons c0 rest ih =>
    intro fps t lastDur i c hc
    cases i with
    | zero =>
      rw [List.getElem?_cons_zero] at hc
      obtain rfl : c0 = c := Option.some.inj hc
      rw [fcpGo]
      by_cases hl : lastDur = 0
      · rw [if_pos hl]
        refine ⟨_, List.getElem?_cons_zero, rfl, ?_, rfl⟩
        simp only [List.take_zero, List.map_nil, List.sum_nil, add_zero, hl,
          fraction_zero]
      · rw [if_neg hl]
        refine ⟨_, List.getElem?_cons_zero, rfl, ?_, rfl⟩
        simp only [List.take_zero, List.map_nil, List.sum_nil, add_zero]
    | succ i =>
      rw [List.getElem?_cons_succ] at hc
      obtain ⟨e, he, hdur, hoff, htm⟩ := ih fps t (lastDur + fcpClipDur c0) i c hc
      rw [fcpGo]
      refine ⟨e, ?_, hdur, ?_, htm⟩
      · by_cases hl : lastDur = 0
        · rw [if_pos hl, List.getElem?_cons_succ]
          exact he
        · rw [if_neg hl, List.getElem?_cons_succ]
          exact he
      · rw [hoff]
        congr 1
        rw [List.take_succ_cons, List.map_cons, List.sum_cons]
        ring

/-- C6 (confirmed): each emitted clip element carries
`duration = fraction(clipDur)`, `offset = fraction(sum of prior clip
durations)` (the code's literal `"0s"` branch coincides with
`fraction 0 = "0s"`), and a second time-remap point
`(fraction(totalDur/(speed/100)), fraction(totalDur))` exactly when the
clip's speed is not 100; the running total advances after every clip. -/
theorem C6_theorem (clips : List (ℤ × ℤ × ℚ)) (fps totalDur : ℚ) (i : ℕ)
    (c : ℤ × ℤ × ℚ) (hc : clips[i]? = some c) :
    ∃ e, (fcpElems clips fps totalDur)[i]? = some e ∧
      e.durAttr = fraction (fcpClipDur c) fps ∧
      e.offsetAttr = fraction (((clips.take i).map fcpClipDur).sum) fps ∧
      e.timeMap = (if c.2.2 ≠ 100 then
        some (fraction (totalDur / (c.2.2 / 100)) fps, fraction totalDur fps)
        else none) := by
  obtain ⟨e, he, h1, h2, h3⟩ := fcpGo_getElem? clips fps totalDur 0 i c hc
  exact ⟨e, he, h1, by rw [h2, zero_add], h3⟩

/-- C6 witness: the second clip of a concrete two-clip export (speeds
100 then 200 percent, 30 fps, total 20 frames). -/
theorem C6_witness :
    ∃ e, (fcpElems [((0 : ℤ), (10 : ℤ), (100 : ℚ)), ((0 : ℤ), (10 : ℤ), (200 : ℚ))]
        30 20)[1]? = some e ∧
      e.durAttr = fraction (fcpClipDur ((0 : ℤ), (10 : ℤ), (200 : ℚ))) 30 ∧
      e.offsetAttr = fraction
        ((([((0 : ℤ), (10 : ℤ), (100 : ℚ)), ((0 : ℤ), (10 : ℤ), (200 : ℚ))].take 1).map
          fcpClipDur).sum) 30 ∧
      e.timeMap = (if ((0 : ℤ), (10 : ℤ), (200 : ℚ)).2.2 ≠ 100 then
        some (fraction (20 / (((0 : ℤ), (10 : ℤ), (200 : ℚ)).2.2 / 100)) 30,
          fraction 20 30)
        else none) :=
  C6_theorem [((0 : ℤ), (10 : ℤ), (100 : ℚ)), ((0 : ℤ), (10 : ℤ), (200 : ℚ))]
    30 20 1 ((0 : ℤ), (10 : ℤ), (200 : ℚ)) rfl

/-- C9 (confirmed): the overlay-duration gate of `make_timeline` fails
(fatally) exactly when some resolved overlay duration is below 1; in
particular duration 0 always fails and duration 1 always passes. -/
theorem C9_theorem (durs : List ℚ) :
    (∃ e, checkObjDurs durs = .error e) ↔ ∃ d ∈ durs, d < 1 := by
  induction durs with
  | nil => simp [checkObjDurs]
  | cons d rest ih =>
    by_cases hd : d < 1
    · simp only [checkObjDurs, if_pos hd]
      constructor
      · intro _
        exact ⟨d, List.mem_cons_self d rest, hd⟩
      · intro _
        exact ⟨_, rfl⟩
    · rw [checkObjDurs, if_neg hd, ih]
      constructor
      · rintro ⟨x, hx, hxlt⟩
        exact ⟨x, List.mem_cons_of_mem d hx, hxlt⟩
      · rintro ⟨x, hx, hxlt⟩
        rcases List.mem_cons.mp hx with rfl | hx'
        · exact absurd hxlt hd
        · exact ⟨x, hx', hxlt⟩
